import Mathlib

/-! Shallow embedding of the blocks-on-chain core (src/core.py): transactions,
blocks with SHA-256-style identity hashes and proof-of-work sealing, and the
blockchain with mining, balance and validation operations. The SHA-256 digest
is modelled as an abstract function `sha : String → String`; collision
resistance enters only as an injectivity hypothesis where a claim needs it.
Python decimal stringification `str(n)` is modelled by `pyNatStr` / `pyIntStr`
below, and the serialization `str([t.__dict__ for t in txs])` by `pyTxListStr`. -/

/-- Decimal digits of `n`, most significant first, accumulated onto `acc`.
Structural recursion on `fuel`; `fuel > n` suffices because `n / 10 < n`. -/
def digitsAux : Nat → Nat → List Char → List Char
  | 0, _, acc => acc
  | fuel + 1, n, acc =>
    let acc' := Nat.digitChar (n % 10) :: acc
    if n / 10 = 0 then acc' else digitsAux fuel (n / 10) acc'

/-- Python `str(n)` for a non-negative integer: decimal, no sign, no padding. -/
def pyNatStr (n : Nat) : String := ⟨digitsAux (n + 1) n []⟩

/-- Python `str(i)` for an arbitrary integer: a leading minus sign when negative. -/
def pyIntStr : Int → String
  | Int.ofNat n => pyNatStr n
  | Int.negSucc n => "-" ++ pyNatStr (n + 1)

/-- Value of a big-endian decimal digit string, the left inverse used to prove
that `pyNatStr` is injective. -/
def digitsVal (l : List Char) : Nat :=
  l.foldl (fun a c => 10 * a + (c.toNat - 48)) 0

theorem digitChar_toNat (d : Nat) (hd : d < 10) :
    (Nat.digitChar d).toNat = 48 + d := by
  interval_cases d <;> decide

theorem digitsAux_succ (fuel n : Nat) (acc : List Char) :
    digitsAux (fuel + 1) n acc =
      if n / 10 = 0 then Nat.digitChar (n % 10) :: acc
      else digitsAux fuel (n / 10) (Nat.digitChar (n % 10) :: acc) := rfl

theorem digitsAux_append (fuel n : Nat) (acc : List Char) :
    digitsAux fuel n acc = digitsAux fuel n [] ++ acc := by
  induction fuel generalizing n acc with
  | zero => simp [digitsAux]
  | succ fuel ih =>
    rw [digitsAux_succ, digitsAux_succ]
    by_cases h : n / 10 = 0
    · simp [h]
    · rw [if_neg h, if_neg h, ih (n / 10) (Nat.digitChar (n % 10) :: acc),
        ih (n / 10) [Nat.digitChar (n % 10)], List.append_assoc]
      rfl

theorem digitsAux_fuel_irrel (fuel fuel' n : Nat) (hn : n < fuel) (hn' : n < fuel') :
    digitsAux fuel n [] = digitsAux fuel' n [] := by
  induction fuel generalizing fuel' n with
  | zero => omega
  | succ fuel ih =>
    obtain ⟨fuel'', rfl⟩ : ∃ k, fuel' = k + 1 := ⟨fuel' - 1, by omega⟩
    rw [digitsAux_succ, digitsAux_succ]
    by_cases h : n / 10 = 0
    · simp [h]
    · rw [if_neg h, if_neg h, digitsAux_append fuel, digitsAux_append fuel'',
        ih fuel'' (n / 10) (by omega) (by omega)]

/-- Stand-alone digit list of `n`, used to reason about `pyNatStr`. -/
def natDigits (n : Nat) : List Char := digitsAux (n + 1) n []

theorem natDigits_rec (n : Nat) (h : n / 10 ≠ 0) :
    natDigits n = natDigits (n / 10) ++ [Nat.digitChar (n % 10)] := by
  have hlt : n / 10 < n := Nat.div_lt_self (by omega) (by omega)
  rw [natDigits, digitsAux_succ, if_neg h, digitsAux_append, natDigits,
    digitsAux_fuel_irrel n (n / 10 + 1) (n / 10) (by omega) (by omega)]

theorem natDigits_base (n : Nat) (h : n / 10 = 0) :
    natDigits n = [Nat.digitChar (n % 10)] := by
  rw [natDigits, digitsAux_succ, if_pos h]

theorem digitsVal_append_singleton (l : List Char) (c : Char) :
    digitsVal (l ++ [c]) = 10 * digitsVal l + (c.toNat - 48) := by
  simp [digitsVal, List.foldl_append]

theorem digitsVal_natDigits (n : Nat) : digitsVal (natDigits n) = n := by
  induction n using Nat.strong_induction_on with
  | _ n ih =>
    by_cases h : n / 10 = 0
    · rw [natDigits_base n h]
      have hv : digitsVal [Nat.digitChar (n % 10)] = (Nat.digitChar (n % 10)).toNat - 48 := by
        simp [digitsVal]
      rw [hv, digitChar_toNat (n % 10) (by omega)]
      omega
    · rw [natDigits_rec n h, digitsVal_append_singleton,
        ih (n / 10) (Nat.div_lt_self (by omega) (by omega)),
        digitChar_toNat (n % 10) (by omega)]
      omega

theorem pyNatStr_injective : Function.Injective pyNatStr := by
  intro a b hab
  have h : natDigits a = natDigits b := congrArg String.data hab
  have := congrArg digitsVal h
  rwa [digitsVal_natDigits, digitsVal_natDigits] at this

theorem pyNatStr_data (n : Nat) : (pyNatStr n).data = natDigits n := rfl

theorem natDigits_mem_digit (n : Nat) (c : Char) (hc : c ∈ natDigits n) :
    48 ≤ c.toNat ∧ c.toNat ≤ 57 := by
  induction n using Nat.strong_induction_on with
  | _ n ih =>
    by_cases h : n / 10 = 0
    · rw [natDigits_base n h] at hc
      rcases List.mem_singleton.mp hc with rfl
      rw [digitChar_toNat (n % 10) (by omega)]
      omega
    · rw [natDigits_rec n h] at hc
      rcases List.mem_append.mp hc with h1 | h1
      · exact ih (n / 10) (Nat.div_lt_self (by omega) (by omega)) h1
      · rcases List.mem_singleton.mp h1 with rfl
        rw [digitChar_toNat (n % 10) (by omega)]
        omega

theorem pyIntStr_injective : Function.Injective pyIntStr := by
  intro a b hab
  cases a with
  | ofNat m =>
    cases b with
    | ofNat k => exact congrArg Int.ofNat (pyNatStr_injective hab)
    | negSucc k =>
      exfalso
      have hd : natDigits m = ('-' : Char) :: natDigits (k + 1) :=
        congrArg String.data hab
      have hmem : ('-' : Char) ∈ natDigits m := by
        rw [hd]; exact List.mem_cons_self _ _
      have hdig := natDigits_mem_digit m _ hmem
      have h45 : ('-' : Char).toNat = 45 := rfl
      omega
  | negSucc m =>
    cases b with
    | ofNat k =>
      exfalso
      have hd : natDigits k = ('-' : Char) :: natDigits (m + 1) :=
        (congrArg String.data hab).symm
      have hmem : ('-' : Char) ∈ natDigits k := by
        rw [hd]; exact List.mem_cons_self _ _
      have hdig := natDigits_mem_digit k _ hmem
      have h45 : ('-' : Char).toNat = 45 := rfl
      omega
    | negSucc k =>
      have hd : (('-' : Char) :: natDigits (m + 1) : List Char) =
          ('-' : Char) :: natDigits (k + 1) := congrArg String.data hab
      have hd2 : natDigits (m + 1) = natDigits (k + 1) := by injection hd
      have hmk : m + 1 = k + 1 :=
        pyNatStr_injective (String.ext hd2 : pyNatStr (m + 1) = pyNatStr (k + 1))
      have hm : m = k := by omega
      rw [hm]

/-- A value transfer record (class `Transaction` in src/core.py). Addresses are
`Option String` so that the `None` sender of a reward transaction is a value of
the same type the `==` comparisons in `get_balance` range over. -/
structure Transaction where
  sender : Option String
  receiver : Option String
  amount : Int
  deriving DecidableEq

/-- A block (class `Block` in src/core.py): predecessor identity, transaction
batch, timestamp, proof-of-work nonce and the stored identity hash. -/
structure Block where
  previous_hash : String
  transactions : List Transaction
  timestamp : Nat
  nonce : Nat
  hash : String
  deriving DecidableEq

/-- The ledger (class `Blockchain` in src/core.py). -/
structure Blockchain where
  chain : List Block
  pending_transactions : List Transaction
  difficulty : Nat
  deriving DecidableEq

/-- Python repr of a transaction field inside `str(t.__dict__)`: `None` for the
null sender, a single-quoted string otherwise. -/
def pyReprOpt : Option String → String
  | none => "None"
  | some s => "\x27" ++ s ++ "\x27"

/-- Python `str(t.__dict__)`: the dict literal with keys in insertion order
sender, receiver, amount. -/
def pyTxDict (t : Transaction) : String :=
  "\x7b\x27sender\x27: " ++ pyReprOpt t.sender ++ ", \x27receiver\x27: " ++
    pyReprOpt t.receiver ++ ", \x27amount\x27: " ++ pyIntStr t.amount ++ "\x7d"

/-- Comma-separated interior of the Python list literal. -/
def pySepTxs : List Transaction → String
  | [] => ""
  | [t] => pyTxDict t
  | t :: t2 :: ts => pyTxDict t ++ ", " ++ pySepTxs (t2 :: ts)

/-- Python `str([t.__dict__ for t in transactions])`. -/
def pyTxListStr (txs : List Transaction) : String := "[" ++ pySepTxs txs ++ "]"

/-- `Block.calculate_hash` (src/core.py lines 43-50): the digest of
`previous_hash + str(timestamp) + str(nonce) + str([t.__dict__ for t in transactions])`. -/
def calculate_hash (sha : String → String) (b : Block) : String :=
  sha (b.previous_hash ++ pyNatStr b.timestamp ++ pyNatStr b.nonce ++
    pyTxListStr b.transactions)

/-- `Block.__init__` (src/core.py lines 27-41): store the four fields and
immediately compute and store the identity hash. -/
def mkBlock (sha : String → String) (previous_hash : String)
    (transactions : List Transaction) (timestamp : Nat) (nonce : Nat := 0) : Block :=
  let b : Block :=
    { previous_hash := previous_hash, transactions := transactions,
      timestamp := timestamp, nonce := nonce, hash := "" }
  { b with hash := calculate_hash sha b }

/-- The proof-of-work target `'0' * difficulty`. -/
def powTarget (difficulty : Nat) : String := ⟨List.replicate difficulty '0'⟩

/-- Python slicing `s[:d]` on a string. -/
def pySlice (s : String) (d : Nat) : String := ⟨s.data.take d⟩

/-- `Block.mine_block` (src/core.py lines 52-65): while the hash does not start
with `difficulty` zeros, increment the nonce and recompute the hash. The
unbounded Python loop is modelled with explicit `fuel`; `none` means the loop
had not terminated within `fuel` iterations. `mineStep` is one loop iteration:
`self.nonce += 1; self.hash = self.calculate_hash()`. -/
def mineStep (sha : String → String) (b : Block) : Block :=
  let b' : Block := { b with nonce := b.nonce + 1 }
  { b' with hash := calculate_hash sha b' }

/-- The loop of `Block.mine_block`, see the doc comment on `mineStep`. -/
def mine_block (sha : String → String) (fuel difficulty : Nat) (b : Block) :
    Option Block :=
  if pySlice b.hash difficulty = powTarget difficulty then some b
  else
    match fuel with
    | 0 => none
    | fuel + 1 => mine_block sha fuel difficulty (mineStep sha b)

/-- `Blockchain.create_genesis_block` (src/core.py lines 82-88):
`Block("0", [], 0, 0)`. -/
def create_genesis_block (sha : String → String) : Block := mkBlock sha "0" [] 0 0

/-- `Blockchain.__init__` (src/core.py lines 73-80). -/
def mkBlockchain (sha : String → String) (difficulty : Nat := 2) : Blockchain :=
  { chain := [create_genesis_block sha], pending_transactions := [],
    difficulty := difficulty }

/-- `Blockchain.add_block` (src/core.py lines 90-95). -/
def add_block (bc : Blockchain) (b : Block) : Blockchain :=
  { bc with chain := bc.chain ++ [b] }

/-- `Blockchain.add_transaction` (src/core.py lines 109-114). -/
def add_transaction (bc : Blockchain) (t : Transaction) : Blockchain :=
  { bc with pending_transactions := bc.pending_transactions ++ [t] }

/-- `Blockchain.get_last_block` (src/core.py lines 116-121): `chain[-1]`;
`none` models the IndexError on an empty chain, which the class never creates. -/
def get_last_block (bc : Blockchain) : Option Block := bc.chain.getLast?

/-- `Blockchain.mine_pending_transactions` (src/core.py lines 97-107): build a
block over the current pool on top of the last block, seal it, append it, and
replace the pool with the single reward transaction `Transaction(None,
miner_address, 1)`. The wall-clock timestamp is an explicit input. -/
def mine_pending_transactions (sha : String → String) (fuel timestamp : Nat)
    (miner_address : Option String) (bc : Blockchain) : Option Blockchain :=
  bc.chain.getLast?.bind fun last =>
    (mine_block sha fuel bc.difficulty
        (mkBlock sha last.hash bc.pending_transactions timestamp)).map fun sealed =>
      { bc with chain := bc.chain ++ [sealed],
                pending_transactions := [⟨none, miner_address, 1⟩] }

/-- `Blockchain.get_balance` (src/core.py lines 123-136): fold over every
transaction of every block; subtract when the sender matches, add when the
receiver matches (two independent `if`s, exactly as in the source). -/
def get_balance (bc : Blockchain) (address : Option String) : Int :=
  bc.chain.foldl (fun balance block =>
    block.transactions.foldl (fun balance t =>
      let balance := if t.sender = address then balance - t.amount else balance
      if t.receiver = address then balance + t.amount else balance) balance) 0

/-- Outcome of `Blockchain.is_chain_valid`: `valid` is the `True` return;
`hashMismatch i` is the `False` return printing "Current block hash does not
match" at loop index `i`; `linkMismatch i` is the `False` return printing
"Previous block hash does not match" at loop index `i`. -/
inductive Verdict where
  | valid : Verdict
  | hashMismatch : Nat → Verdict
  | linkMismatch : Nat → Verdict
  deriving DecidableEq

/-- The validation loop of `is_chain_valid` (src/core.py lines 143-151): walk
the blocks after the genesis with their predecessor, checking the stored hash
against a recomputation first and the linkage second; first failure wins. -/
def chainCheck (sha : String → String) : Nat → Block → List Block → Verdict
  | _, _, [] => Verdict.valid
  | i, previous_block, current_block :: rest =>
    if current_block.hash ≠ calculate_hash sha current_block then
      Verdict.hashMismatch i
    else if previous_block.hash ≠ current_block.previous_hash then
      Verdict.linkMismatch i
    else chainCheck sha (i + 1) current_block rest

/-- Verdict of `is_chain_valid` on a chain list, starting the walk at index 1. -/
def chain_verdict (sha : String → String) : List Block → Verdict
  | [] => Verdict.valid
  | b :: rest => chainCheck sha 1 b rest

/-- `Blockchain.is_chain_valid` (src/core.py lines 138-152) as the boolean the
Python function returns. -/
def is_chain_valid (sha : String → String) (bc : Blockchain) : Bool :=
  decide (chain_verdict sha bc.chain = Verdict.valid)

/-- Net effect of one transaction on one address, following the spec's words
for `GetBalance`: credit `amount` when the receiver matches, debit `amount`
when the sender matches. -/
def txContrib (address : Option String) (t : Transaction) : Int :=
  (if t.receiver = address then t.amount else 0) -
    (if t.sender = address then t.amount else 0)

/-- Balance of an address as the spec describes it: the sum of the per
transaction contributions over a transaction list. -/
def balanceSpec (address : Option String) (txs : List Transaction) : Int :=
  (txs.map (txContrib address)).sum

/-- All transactions stored in the chain, blocks in order, transactions in
order within each block. -/
def chainTxs (bc : Blockchain) : List Transaction :=
  bc.chain.flatMap Block.transactions

/-- Replace the element at position `k` by its image under `f`; the list is
unchanged when `k` is out of range. Models in-place mutation of a list entry. -/
def updateAt {α : Type} (f : α → α) : List α → Nat → List α
  | [], _ => []
  | x :: xs, 0 => f x :: xs
  | x :: xs, k + 1 => x :: updateAt f xs k

/-- Run `mine_pending_transactions` once per element of `params`, each element
supplying the fuel, the wall-clock timestamp and the miner address of that
call; `none` as soon as one call fails to terminate. -/
def mineSeq (sha : String → String) :
    List (Nat × Nat × Option String) → Blockchain → Option Blockchain
  | [], bc => some bc
  | (fuel, ts, miner) :: rest, bc =>
    (mine_pending_transactions sha fuel ts miner bc).bind (mineSeq sha rest)

/-- One public mutating ledger operation, for stating invariants over every
sequence of `add_transaction`, `add_block` and `mine_pending_transactions`
calls. -/
inductive LedgerOp where
  | addTx : Transaction → LedgerOp
  | addBlk : Block → LedgerOp
  | mine : Nat → Nat → Option String → LedgerOp

/-- Apply one ledger operation. -/
def applyOp (sha : String → String) (bc : Blockchain) : LedgerOp → Option Blockchain
  | LedgerOp.addTx t => some (add_transaction bc t)
  | LedgerOp.addBlk b => some (add_block bc b)
  | LedgerOp.mine fuel ts miner => mine_pending_transactions sha fuel ts miner bc

/-- Apply a sequence of ledger operations, stopping at a non-terminating mine. -/
def applyOps (sha : String → String) : List LedgerOp → Blockchain → Option Blockchain
  | [], bc => some bc
  | op :: ops, bc => (applyOp sha bc op).bind (applyOps sha ops)

/-- Linkage and stored-hash correctness of the blocks after the genesis, the
inductive invariant behind `is_chain_valid`: each block's stored hash is its
recomputed hash and its `previous_hash` is the predecessor's stored hash. -/
def chainOk (sha : String → String) (prev : Block) : List Block → Prop
  | [] => True
  | b :: rest =>
    b.hash = calculate_hash sha b ∧ prev.hash = b.previous_hash ∧ chainOk sha b rest

theorem str_append_right_cancel {a b r : String} (h : a ++ r = b ++ r) : a = b := by
  apply String.ext
  have hd : a.data ++ r.data = b.data ++ r.data := by
    rw [← String.data_append, ← String.data_append, h]
  exact List.append_cancel_right hd

theorem str_append_left_cancel {p a b : String} (h : p ++ a = p ++ b) : a = b := by
  apply String.ext
  have hd : p.data ++ a.data = p.data ++ b.data := by
    rw [← String.data_append, ← String.data_append, h]
  exact List.append_cancel_left hd

theorem pyTxDict_amount_inj (t : Transaction) (a : Int)
    (h : pyTxDict { t with amount := a } = pyTxDict t) : a = t.amount := by
  obtain ⟨s, r, amt⟩ := t
  simp only [pyTxDict] at h
  exact pyIntStr_injective (str_append_left_cancel (str_append_right_cancel h))

theorem pySepTxs_cons (t : Transaction) (l : List Transaction) (hl : l ≠ []) :
    pySepTxs (t :: l) = pyTxDict t ++ ", " ++ pySepTxs l := by
  cases l with
  | nil => exact absurd rfl hl
  | cons t2 ts => rfl

theorem updateAt_ne_nil {α : Type} (f : α → α) (l : List α) (k : Nat) (hl : l ≠ []) :
    updateAt f l k ≠ [] := by
  cases l with
  | nil => exact absurd rfl hl
  | cons x xs => cases k <;> simp [updateAt]

theorem pySepTxs_updateAmount_ne :
    ∀ (txs : List Transaction) (j : Nat) (a : Int) (tj : Transaction),
      txs[j]? = some tj → a ≠ tj.amount →
      pySepTxs (updateAt (fun t => { t with amount := a }) txs j) ≠ pySepTxs txs := by
  intro txs
  induction txs with
  | nil => intro j a tj htj; simp at htj
  | cons t ts ih =>
    intro j a tj htj hne
    cases j with
    | zero =>
      rw [List.getElem?_cons_zero] at htj
      have ht : t = tj := by injection htj
      subst ht
      cases ts with
      | nil =>
        intro h
        exact hne (pyTxDict_amount_inj t a h)
      | cons t2 ts2 =>
        intro h
        rw [show updateAt (fun u => { u with amount := a }) (t :: t2 :: ts2) 0 =
            ({ t with amount := a }) :: t2 :: ts2 from rfl] at h
        rw [pySepTxs_cons ({ t with amount := a }) (t2 :: ts2) (by simp),
          pySepTxs_cons t (t2 :: ts2) (by simp)] at h
        exact hne (pyTxDict_amount_inj t a
          (str_append_right_cancel (str_append_right_cancel h)))
    | succ j =>
      rw [List.getElem?_cons_succ] at htj
      cases ts with
      | nil => simp at htj
      | cons t2 ts2 =>
        intro h
        rw [show updateAt (fun u => { u with amount := a }) (t :: t2 :: ts2) (j + 1) =
            t :: updateAt (fun u => { u with amount := a }) (t2 :: ts2) j from rfl] at h
        rw [pySepTxs_cons t (updateAt (fun u => { u with amount := a }) (t2 :: ts2) j)
            (updateAt_ne_nil _ _ _ (by simp)),
          pySepTxs_cons t (t2 :: ts2) (by simp)] at h
        exact ih j a tj htj hne (str_append_left_cancel h)

theorem pyTxListStr_updateAmount_ne (txs : List Transaction) (j : Nat) (a : Int)
    (tj : Transaction) (htj : txs[j]? = some tj) (hne : a ≠ tj.amount) :
    pyTxListStr (updateAt (fun t => { t with amount := a }) txs j) ≠ pyTxListStr txs := by
  intro h
  exact pySepTxs_updateAmount_ne txs j a tj htj hne
    (str_append_left_cancel (str_append_right_cancel h))

theorem calculate_hash_hash_irrel (sha : String → String) (b : Block) (h' : String) :
    calculate_hash sha { b with hash := h' } = calculate_hash sha b := rfl

theorem mkBlock_hash (sha : String → String) (ph : String) (txs : List Transaction)
    (ts n : Nat) :
    (mkBlock sha ph txs ts n).hash = calculate_hash sha (mkBlock sha ph txs ts n) := rfl

theorem mineStep_hash (sha : String → String) (b : Block) :
    (mineStep sha b).hash = calculate_hash sha (mineStep sha b) := rfl

theorem mine_block_eq (sha : String → String) (fuel d : Nat) (b : Block) :
    mine_block sha fuel d b =
      if pySlice b.hash d = powTarget d then some b
      else
        match fuel with
        | 0 => none
        | fuel + 1 => mine_block sha fuel d (mineStep sha b) := by
  cases fuel <;> rfl

theorem mine_block_some (sha : String → String) (fuel d : Nat) (b b' : Block)
    (h : mine_block sha fuel d b = some b') :
    b'.previous_hash = b.previous_hash ∧ b'.transactions = b.transactions ∧
      b'.timestamp = b.timestamp ∧ pySlice b'.hash d = powTarget d := by
  induction fuel generalizing b with
  | zero =>
    rw [mine_block_eq] at h
    by_cases hc : pySlice b.hash d = powTarget d
    · rw [if_pos hc] at h
      cases h
      exact ⟨rfl, rfl, rfl, hc⟩
    · rw [if_neg hc] at h
      cases h
  | succ fuel ih =>
    rw [mine_block_eq] at h
    by_cases hc : pySlice b.hash d = powTarget d
    · rw [if_pos hc] at h
      cases h
      exact ⟨rfl, rfl, rfl, hc⟩
    · rw [if_neg hc] at h
      have hs := ih (mineStep sha b) h
      simpa [mineStep] using hs

theorem mine_block_hash (sha : String → String) (fuel d : Nat) (b b' : Block)
    (hb : b.hash = calculate_hash sha b) (h : mine_block sha fuel d b = some b') :
    b'.hash = calculate_hash sha b' := by
  induction fuel generalizing b with
  | zero =>
    rw [mine_block_eq] at h
    by_cases hc : pySlice b.hash d = powTarget d
    · rw [if_pos hc] at h; cases h; exact hb
    · rw [if_neg hc] at h; cases h
  | succ fuel ih =>
    rw [mine_block_eq] at h
    by_cases hc : pySlice b.hash d = powTarget d
    · rw [if_pos hc] at h; cases h; exact hb
    · rw [if_neg hc] at h
      exact ih (mineStep sha b) (mineStep_hash sha b) h

theorem chainCheck_nil (sha : String → String) (i : Nat) (prev : Block) :
    chainCheck sha i prev [] = Verdict.valid := rfl

theorem chainCheck_cons (sha : String → String) (i : Nat) (prev b : Block)
    (rest : List Block) :
    chainCheck sha i prev (b :: rest) =
      if b.hash ≠ calculate_hash sha b then Verdict.hashMismatch i
      else if prev.hash ≠ b.previous_hash then Verdict.linkMismatch i
      else chainCheck sha (i + 1) b rest := rfl

theorem chainOk_chainCheck (sha : String → String) :
    ∀ (l : List Block) (prev : Block) (i : Nat),
      chainOk sha prev l → chainCheck sha i prev l = Verdict.valid := by
  intro l
  induction l with
  | nil => intro prev i _; rfl
  | cons b rest ih =>
    intro prev i hok
    obtain ⟨hb, hlink, htail⟩ := hok
    rw [chainCheck_cons, if_neg (fun hc => hc hb), if_neg (fun hc => hc hlink)]
    exact ih b (i + 1) htail

theorem chainCheck_chainOk (sha : String → String) :
    ∀ (l : List Block) (prev : Block) (i : Nat),
      chainCheck sha i prev l = Verdict.valid → chainOk sha prev l := by
  intro l
  induction l with
  | nil => intro prev i _; trivial
  | cons b rest ih =>
    intro prev i h
    rw [chainCheck_cons] at h
    by_cases hb : b.hash ≠ calculate_hash sha b
    · rw [if_pos hb] at h; cases h
    · rw [if_neg hb] at h
      by_cases hlink : prev.hash ≠ b.previous_hash
      · rw [if_pos hlink] at h; cases h
      · rw [if_neg hlink] at h
        exact ⟨not_not.mp hb, not_not.mp hlink, ih b (i + 1) h⟩

theorem chainCheck_mutate_prevHash (sha : String → String)
    (hinj : Function.Injective sha) :
    ∀ (rest : List Block) (k i : Nat) (prev : Block) (v : String) (p : Block),
      chainOk sha prev rest →
      (prev :: rest)[k]? = some p →
      k < rest.length →
      v ≠ p.hash →
      chainCheck sha i prev
          (updateAt (fun b => { b with previous_hash := v }) rest k) =
        Verdict.hashMismatch (i + k) := by
  intro rest
  induction rest with
  | nil => intro k i prev v p _ _ hk; simp at hk
  | cons b bs ih =>
    intro k i prev v p hok hp hk hv
    obtain ⟨hbh, hlink, htail⟩ := hok
    cases k with
    | zero =>
      rw [List.getElem?_cons_zero] at hp
      have hpprev : prev = p := by injection hp
      subst hpprev
      rw [show updateAt (fun b => { b with previous_hash := v }) (b :: bs) 0 =
          ({ b with previous_hash := v }) :: bs from rfl]
      have hne : ({ b with previous_hash := v } : Block).hash ≠
          calculate_hash sha { b with previous_hash := v } := by
        intro heq
        have heq2 : calculate_hash sha b = calculate_hash sha { b with previous_hash := v } := by
          rw [← hbh]; exact heq
        simp only [calculate_hash] at heq2
        have hpre := hinj heq2
        have h3 := str_append_right_cancel
          (str_append_right_cancel (str_append_right_cancel hpre))
        exact hv (by rw [hlink, h3])
      rw [chainCheck_cons, if_pos hne, Nat.add_zero]
    | succ k =>
      rw [List.getElem?_cons_succ] at hp
      rw [show updateAt (fun b => { b with previous_hash := v }) (b :: bs) (k + 1) =
          b :: updateAt (fun b => { b with previous_hash := v }) bs k from rfl]
      rw [chainCheck_cons, if_neg (fun hc => hc hbh), if_neg (fun hc => hc hlink)]
      have hlen : k < bs.length := by simpa using hk
      rw [ih k (i + 1) b v p htail hp hlen hv]
      congr 1
      omega

/-- In-place mutation of the amount of transaction `j` inside a block, leaving
the stored hash untouched (the tampering of claim C2). -/
def mutAmount (j : Nat) (a : Int) (blk : Block) : Block :=
  { blk with transactions := updateAt (fun t => { t with amount := a }) blk.transactions j }

theorem updateAt_zero {α : Type} (f : α → α) (x : α) (xs : List α) :
    updateAt f (x :: xs) 0 = f x :: xs := rfl

theorem updateAt_succ {α : Type} (f : α → α) (x : α) (xs : List α) (k : Nat) :
    updateAt f (x :: xs) (k + 1) = x :: updateAt f xs k := rfl

theorem mutAmount_hash (j : Nat) (a : Int) (blk : Block) :
    (mutAmount j a blk).hash = blk.hash := rfl

theorem chainCheck_mutate_amount (sha : String → String)
    (hinj : Function.Injective sha) :
    ∀ (rest : List Block) (k i : Nat) (prev : Block) (j : Nat) (a : Int)
      (bk : Block) (tj : Transaction),
      chainOk sha prev rest →
      rest[k]? = some bk →
      bk.transactions[j]? = some tj →
      a ≠ tj.amount →
      chainCheck sha i prev (updateAt (mutAmount j a) rest k) =
        Verdict.hashMismatch (i + k) := by
  intro rest
  induction rest with
  | nil => intro k i prev j a bk tj _ hbk; simp at hbk
  | cons b bs ih =>
    intro k i prev j a bk tj hok hbk htj hne
    obtain ⟨hbh, hlink, htail⟩ := hok
    cases k with
    | zero =>
      rw [List.getElem?_cons_zero] at hbk
      have hb : b = bk := by injection hbk
      subst hb
      rw [updateAt_zero]
      have hmb : (mutAmount j a b).hash ≠ calculate_hash sha (mutAmount j a b) := by
        intro heq
        rw [mutAmount_hash, hbh] at heq
        simp only [calculate_hash, mutAmount] at heq
        have hlists := str_append_left_cancel (hinj heq)
        exact pyTxListStr_updateAmount_ne b.transactions j a tj htj hne hlists.symm
      rw [chainCheck_cons, if_pos hmb, Nat.add_zero]
    | succ k =>
      rw [List.getElem?_cons_succ] at hbk
      rw [updateAt_succ]
      rw [chainCheck_cons, if_neg (fun hc => hc hbh), if_neg (fun hc => hc hlink)]
      rw [ih k (i + 1) b j a bk tj htail hbk htj hne]
      congr 1
      omega

theorem balanceSpec_nil (address : Option String) : balanceSpec address [] = 0 := rfl

theorem balanceSpec_cons (address : Option String) (t : Transaction)
    (ts : List Transaction) :
    balanceSpec address (t :: ts) = txContrib address t + balanceSpec address ts := by
  simp [balanceSpec]

theorem balanceSpec_append (address : Option String) (xs ys : List Transaction) :
    balanceSpec address (xs ++ ys) = balanceSpec address xs + balanceSpec address ys := by
  simp [balanceSpec]

theorem get_balance_inner (address : Option String) :
    ∀ (txs : List Transaction) (acc : Int),
      txs.foldl (fun balance t =>
        let balance := if t.sender = address then balance - t.amount else balance
        if t.receiver = address then balance + t.amount else balance) acc
      = acc + balanceSpec address txs := by
  intro txs
  induction txs with
  | nil => intro acc; simp [balanceSpec]
  | cons t ts ih =>
    intro acc
    rw [List.foldl_cons, ih, balanceSpec_cons]
    by_cases hs : t.sender = address <;> by_cases hr : t.receiver = address <;>
      simp [txContrib, hs, hr] <;> ring

theorem get_balance_eq (bc : Blockchain) (address : Option String) :
    get_balance bc address = balanceSpec address (chainTxs bc) := by
  have h : ∀ (l : List Block) (acc : Int),
      l.foldl (fun balance block =>
        block.transactions.foldl (fun balance t =>
          let balance := if t.sender = address then balance - t.amount else balance
          if t.receiver = address then balance + t.amount else balance) balance) acc
      = acc + balanceSpec address (l.flatMap Block.transactions) := by
    intro l
    induction l with
    | nil => intro acc; simp [balanceSpec]
    | cons blk rest ih =>
      intro acc
      rw [List.foldl_cons, get_balance_inner, ih, List.flatMap_cons, balanceSpec_append]
      ring
  have h0 := h bc.chain 0
  rw [Int.zero_add] at h0
  exact h0

theorem getLast?_cons_getLastD {α : Type} (g : α) (rest : List α) :
    (g :: rest).getLast? = some (rest.getLastD g) := by
  induction rest generalizing g with
  | nil => rfl
  | cons r rs ih => rw [List.getLast?_cons_cons, ih, List.getLastD_cons]

theorem chainOk_append (sha : String → String) :
    ∀ (rest : List Block) (g b : Block),
      chainOk sha g rest → b.hash = calculate_hash sha b →
      (rest.getLastD g).hash = b.previous_hash →
      chainOk sha g (rest ++ [b]) := by
  intro rest
  induction rest with
  | nil => intro g b _ hb hl; exact ⟨hb, hl, trivial⟩
  | cons r rs ih =>
    intro g b hok hb hl
    obtain ⟨h1, h2, h3⟩ := hok
    exact ⟨h1, h2, ih r b h3 hb (by rwa [List.getLastD_cons] at hl)⟩

/-- Shape of every chain the `Blockchain` class builds: non-empty, and every
block after the head carries a correct stored hash and a correct link. -/
def ledgerOk (sha : String → String) (bc : Blockchain) : Prop :=
  ∃ g rest, bc.chain = g :: rest ∧ chainOk sha g rest

theorem chain_verdict_cons (sha : String → String) (g : Block) (rest : List Block) :
    chain_verdict sha (g :: rest) = chainCheck sha 1 g rest := rfl

theorem mkBlockchain_ledgerOk (sha : String → String) (d : Nat) :
    ledgerOk sha (mkBlockchain sha d) :=
  ⟨create_genesis_block sha, [], rfl, trivial⟩

theorem ledgerOk_is_chain_valid (sha : String → String) (bc : Blockchain)
    (h : ledgerOk sha bc) : is_chain_valid sha bc = true := by
  obtain ⟨g, rest, hc, hok⟩ := h
  have hv := chainOk_chainCheck sha rest g 1 hok
  simp [is_chain_valid, hc, chain_verdict_cons, hv]

theorem mine_pending_ok (sha : String → String) (fuel ts : Nat)
    (miner : Option String) (bc bc' : Blockchain)
    (h : mine_pending_transactions sha fuel ts miner bc = some bc')
    (hok : ledgerOk sha bc) :
    ledgerOk sha bc' ∧ bc'.chain.length = bc.chain.length + 1 := by
  obtain ⟨g, rest, hc, hcok⟩ := hok
  unfold mine_pending_transactions at h
  rw [hc, getLast?_cons_getLastD, Option.some_bind] at h
  cases hm : mine_block sha fuel bc.difficulty
      (mkBlock sha (rest.getLastD g).hash bc.pending_transactions ts) with
  | none => rw [hm, Option.map_none'] at h; cases h
  | some sealed =>
    rw [hm, Option.map_some'] at h
    cases h
    obtain ⟨hph, htx, hts, hpow⟩ := mine_block_some sha fuel bc.difficulty _ sealed hm
    have hsh : sealed.hash = calculate_hash sha sealed :=
      mine_block_hash sha fuel bc.difficulty _ sealed (mkBlock_hash sha _ _ _ _) hm
    constructor
    · refine ⟨g, rest ++ [sealed], ?_, ?_⟩
      · simp [hc]
      · exact chainOk_append sha rest g sealed hcok hsh (by rw [hph]; rfl)
    · simp [hc]

theorem mineSeq_ok (sha : String → String) :
    ∀ (params : List (Nat × Nat × Option String)) (bc bc' : Blockchain),
      ledgerOk sha bc → mineSeq sha params bc = some bc' →
      ledgerOk sha bc' ∧ bc'.chain.length = bc.chain.length + params.length := by
  intro params
  induction params with
  | nil =>
    intro bc bc' hok h
    cases h
    exact ⟨hok, by simp⟩
  | cons p rest ih =>
    obtain ⟨fuel, ts, miner⟩ := p
    intro bc bc' hok h
    rw [show mineSeq sha ((fuel, ts, miner) :: rest) bc =
        (mine_pending_transactions sha fuel ts miner bc).bind (mineSeq sha rest)
        from rfl] at h
    cases hm : mine_pending_transactions sha fuel ts miner bc with
    | none => rw [hm, Option.none_bind] at h; cases h
    | some bc1 =>
      rw [hm, Option.some_bind] at h
      obtain ⟨hok1, hlen1⟩ := mine_pending_ok sha fuel ts miner bc bc1 hm hok
      obtain ⟨hok2, hlen2⟩ := ih bc1 bc' hok1 h
      refine ⟨hok2, ?_⟩
      simp only [List.length_cons]
      omega

theorem applyOp_chain (sha : String → String) (bc : Blockchain) (op : LedgerOp)
    (bc' : Blockchain) (h : applyOp sha bc op = some bc') :
    bc'.chain = bc.chain ∨ ∃ nb, bc'.chain = bc.chain ++ [nb] := by
  cases op with
  | addTx t => cases h; left; rfl
  | addBlk b => cases h; right; exact ⟨b, rfl⟩
  | mine fuel ts miner =>
    rw [show applyOp sha bc (LedgerOp.mine fuel ts miner) =
        mine_pending_transactions sha fuel ts miner bc from rfl] at h
    unfold mine_pending_transactions at h
    cases hl : bc.chain.getLast? with
    | none => rw [hl, Option.none_bind] at h; cases h
    | some last =>
      rw [hl, Option.some_bind] at h
      cases hm : mine_block sha fuel bc.difficulty
          (mkBlock sha last.hash bc.pending_transactions ts) with
      | none => rw [hm, Option.map_none'] at h; cases h
      | some sealed =>
        rw [hm, Option.map_some'] at h
        cases h
        right
        exact ⟨sealed, rfl⟩

theorem applyOps_head (sha : String → String) :
    ∀ (ops : List LedgerOp) (bc bc' : Blockchain) (g : Block),
      (∃ t, bc.chain = g :: t) → applyOps sha ops bc = some bc' →
      ∃ t', bc'.chain = g :: t' := by
  intro ops
  induction ops with
  | nil => intro bc bc' g hg h; cases h; exact hg
  | cons op ops ih =>
    intro bc bc' g hg h
    rw [show applyOps sha (op :: ops) bc = (applyOp sha bc op).bind (applyOps sha ops)
        from rfl] at h
    cases ho : applyOp sha bc op with
    | none => rw [ho, Option.none_bind] at h; cases h
    | some bc1 =>
      rw [ho, Option.some_bind] at h
      obtain ⟨t, ht⟩ := hg
      rcases applyOp_chain sha bc op bc1 ho with hsame | ⟨nb, happ⟩
      · exact ih bc1 bc' g ⟨t, by rw [hsame, ht]⟩ h
      · exact ih bc1 bc' g ⟨t ++ [nb], by rw [happ, ht]; rfl⟩ h

/-- Claim C7: for every block, `mine_block` with difficulty 0 returns on the
first check, before any nonce increment or hash recomputation: the result is
the input block itself, so nonce and hash are both unchanged, for any fuel
(including 0, showing no loop iteration is consumed). -/
theorem C7_difficulty_zero (sha : String → String) (fuel : Nat) (b : Block) :
    mine_block sha fuel 0 b = some b := by
  rw [mine_block_eq]
  exact if_pos rfl

/-- Claim C3: immediately after construction a block's stored hash equals its
recomputed hash, and whenever `mine_block` on such a block returns, the first
`d` characters of the result's hash are all zeros (`powTarget d`) and the
stored hash again equals the recomputed hash. -/
theorem C3_seal_postcondition (sha : String → String) (ph : String)
    (txs : List Transaction) (ts n d fuel : Nat) :
    (mkBlock sha ph txs ts n).hash = calculate_hash sha (mkBlock sha ph txs ts n) ∧
    ∀ b', mine_block sha fuel d (mkBlock sha ph txs ts n) = some b' →
      pySlice b'.hash d = powTarget d ∧ b'.hash = calculate_hash sha b' := by
  refine ⟨rfl, fun b' h => ?_⟩
  obtain ⟨-, -, -, hpow⟩ := mine_block_some sha fuel d _ b' h
  exact ⟨hpow, mine_block_hash sha fuel d _ b' (mkBlock_hash sha ph txs ts n) h⟩

/-- Witness for C3 at a concrete input: the identity digest, a block on top of
the genesis hash, difficulty 2 (satisfied at nonce 0 because the genesis hash
of the identity digest starts with two zeros). -/
theorem C3_seal_postcondition_witness :
    pySlice (mkBlock id (create_genesis_block id).hash [] 7 0).hash 2 = powTarget 2 ∧
    (mkBlock id (create_genesis_block id).hash [] 7 0).hash =
      calculate_hash id (mkBlock id (create_genesis_block id).hash [] 7 0) :=
  (C3_seal_postcondition id (create_genesis_block id).hash [] 7 0 2 0).2
    (mkBlock id (create_genesis_block id).hash [] 7 0) (by decide)

/-- Claim C5: when `mine_pending_transactions` returns, the appended block's
`previous_hash` is the hash of the block that was last before the call, its
transactions are exactly the pending pool at the start of the call, and the
pool is afterwards the single reward transaction (None, miner, 1). -/
theorem C5_mine_postcondition (sha : String → String) (fuel ts : Nat)
    (miner : Option String) (bc bc' : Blockchain)
    (h : mine_pending_transactions sha fuel ts miner bc = some bc') :
    ∃ last sealed, bc.chain.getLast? = some last ∧
      bc'.chain = bc.chain ++ [sealed] ∧
      sealed.previous_hash = last.hash ∧
      sealed.transactions = bc.pending_transactions ∧
      bc'.pending_transactions = [⟨none, miner, 1⟩] := by
  unfold mine_pending_transactions at h
  cases hl : bc.chain.getLast? with
  | none => rw [hl, Option.none_bind] at h; cases h
  | some last =>
    rw [hl, Option.some_bind] at h
    cases hm : mine_block sha fuel bc.difficulty
        (mkBlock sha last.hash bc.pending_transactions ts) with
    | none => rw [hm, Option.map_none'] at h; cases h
    | some sealed =>
      rw [hm, Option.map_some'] at h
      cases h
      obtain ⟨hph, htx, -, -⟩ := mine_block_some sha fuel bc.difficulty _ sealed hm
      refine ⟨last, sealed, rfl, rfl, ?_, ?_, rfl⟩
      · rw [hph]; rfl
      · rw [htx]; rfl

/-- The ledger obtained by one terminating mine on a fresh ledger with the
identity digest: used as the concrete input of the witness of C5. -/
def minedOnce : Blockchain :=
  ⟨[create_genesis_block id, mkBlock id (create_genesis_block id).hash [] 7 0],
    [⟨none, some "m", 1⟩], 2⟩

/-- Witness for C5 at a concrete input. -/
theorem C5_mine_postcondition_witness :
    ∃ last sealed, (mkBlockchain id 2).chain.getLast? = some last ∧
      minedOnce.chain = (mkBlockchain id 2).chain ++ [sealed] ∧
      sealed.previous_hash = last.hash ∧
      sealed.transactions = (mkBlockchain id 2).pending_transactions ∧
      minedOnce.pending_transactions = [⟨none, some "m", 1⟩] :=
  C5_mine_postcondition id 0 7 (some "m") (mkBlockchain id 2) minedOnce (by decide)

theorem chainCheck_prev_hash_only (sha : String → String) (i : Nat)
    (prev prev' : Block) (l : List Block) (h : prev.hash = prev'.hash) :
    chainCheck sha i prev l = chainCheck sha i prev' l := by
  cases l with
  | nil => rfl
  | cons b rest => rw [chainCheck_cons, chainCheck_cons, h]

/-- Claim C10: `is_chain_valid` never inspects the genesis block's own
contents: replacing the head block by any block with the same stored hash
leaves the verdict (and hence the boolean) unchanged, because validation
starts at index 1 and the head is only consulted through its stored hash. -/
theorem C10_genesis_not_inspected (sha : String → String) (b0 b0' : Block)
    (rest : List Block) (p : List Transaction) (d : Nat)
    (hh : b0'.hash = b0.hash) :
    chain_verdict sha (b0' :: rest) = chain_verdict sha (b0 :: rest) ∧
    is_chain_valid sha { chain := b0' :: rest, pending_transactions := p, difficulty := d } =
      is_chain_valid sha { chain := b0 :: rest, pending_transactions := p, difficulty := d } := by
  have hv : chain_verdict sha (b0' :: rest) = chain_verdict sha (b0 :: rest) := by
    rw [chain_verdict_cons, chain_verdict_cons]
    exact chainCheck_prev_hash_only sha 1 b0' b0 rest hh
  exact ⟨hv, by simp [is_chain_valid, hv]⟩

/-- Witness for C10 at a concrete input: every genesis field except the stored
hash is mutated (sentinel, transaction list, timestamp and nonce), and both
verdicts agree. -/
theorem C10_genesis_not_inspected_witness :
    chain_verdict id
        (⟨"mutated", [⟨some "A", some "B", 5⟩], 42, 9, (create_genesis_block id).hash⟩ ::
          [mkBlock id (create_genesis_block id).hash [] 5 0]) =
      chain_verdict id
        (create_genesis_block id :: [mkBlock id (create_genesis_block id).hash [] 5 0]) ∧
    is_chain_valid id
        { chain := ⟨"mutated", [⟨some "A", some "B", 5⟩], 42, 9,
            (create_genesis_block id).hash⟩ ::
            [mkBlock id (create_genesis_block id).hash [] 5 0],
          pending_transactions := [], difficulty := 2 } =
      is_chain_valid id
        { chain := create_genesis_block id ::
            [mkBlock id (create_genesis_block id).hash [] 5 0],
          pending_transactions := [], difficulty := 2 } :=
  C10_genesis_not_inspected id (create_genesis_block id)
    ⟨"mutated", [⟨some "A", some "B", 5⟩], 42, 9, (create_genesis_block id).hash⟩
    [mkBlock id (create_genesis_block id).hash [] 5 0] [] 2 rfl

/-- A concrete two-block chain over the identity digest, valid as built: the
genesis block and one block correctly sealed on top of it. -/
def twoBlockChain : List Block :=
  [create_genesis_block id, mkBlock id (create_genesis_block id).hash [] 5 0]

/-- Counterexample to claim C1 as stated: on a valid two-block chain, replacing
`chain[1].previous_hash` by "X" (different from `chain[0].hash`) does make
`is_chain_valid` return false, but the failure reported is the HASH mismatch at
index 1, not the linkage mismatch the claim announces: the mutated
`previous_hash` feeds the hash recomputation, and that check runs first. -/
theorem C1_counterexample :
    is_chain_valid id
        { chain := twoBlockChain, pending_transactions := [], difficulty := 0 } = true ∧
    "X" ≠ (create_genesis_block id).hash ∧
    is_chain_valid id
        { chain := updateAt (fun b => { b with previous_hash := "X" }) twoBlockChain 1,
          pending_transactions := [], difficulty := 0 } = false ∧
    chain_verdict id
        (updateAt (fun b => { b with previous_hash := "X" }) twoBlockChain 1) =
      Verdict.hashMismatch 1 ∧
    Verdict.hashMismatch 1 ≠ Verdict.linkMismatch 1 := by decide

/-- Claim C1 (amended): replacing `chain[k].previous_hash` (k > 0) of a
currently valid chain by a value different from `chain[k-1].hash` makes
`is_chain_valid` return false, citing a hash mismatch at index k (not a
linkage mismatch): the mutated `previous_hash` changes the block's recomputed
hash away from its stored hash, and the hash check runs before the linkage
check. Holds for every injective digest. -/
theorem C1_brokenLink_hashMismatch (sha : String → String)
    (hinj : Function.Injective sha) (bc : Blockchain) (k : Nat) (v : String)
    (p : Block) (hvalid : is_chain_valid sha bc = true)
    (hk1 : 1 ≤ k) (hk : k < bc.chain.length)
    (hp : bc.chain[k - 1]? = some p) (hv : v ≠ p.hash) :
    chain_verdict sha (updateAt (fun b => { b with previous_hash := v }) bc.chain k) =
      Verdict.hashMismatch k ∧
    is_chain_valid sha { bc with
      chain := updateAt (fun b => { b with previous_hash := v }) bc.chain k } = false := by
  have hvv : chain_verdict sha bc.chain = Verdict.valid := of_decide_eq_true hvalid
  obtain ⟨j, rfl⟩ : ∃ j, k = j + 1 := ⟨k - 1, by omega⟩
  cases hcc : bc.chain with
  | nil => rw [hcc] at hk; simp at hk
  | cons g rest =>
    rw [hcc] at hvv hp hk
    rw [chain_verdict_cons] at hvv
    have hok := chainCheck_chainOk sha rest g 1 hvv
    have hp' : (g :: rest)[j]? = some p := by simpa using hp
    have hlen : j < rest.length := by
      simp only [List.length_cons] at hk
      omega
    have hmain := chainCheck_mutate_prevHash sha hinj rest j 1 g v p hok hp' hlen hv
    have h1j : 1 + j = j + 1 := by omega
    rw [h1j] at hmain
    constructor
    · rw [updateAt_succ, chain_verdict_cons, hmain]
    · simp [is_chain_valid, updateAt_succ, chain_verdict_cons, hmain]

/-- The valid two-block chain packed into a ledger, the concrete input of the
witness of the amended C1. -/
def twoBlockLedger : Blockchain := ⟨twoBlockChain, [], 0⟩

/-- Witness for the amended C1 at a concrete input: the valid two-block chain
over the identity digest, mutated at index 1. -/
theorem C1_brokenLink_hashMismatch_witness :
    chain_verdict id (updateAt (fun b => { b with previous_hash := "X" })
        twoBlockLedger.chain 1) = Verdict.hashMismatch 1 ∧
    is_chain_valid id { twoBlockLedger with
      chain := updateAt (fun b => { b with previous_hash := "X" })
        twoBlockLedger.chain 1 } = false :=
  C1_brokenLink_hashMismatch id Function.injective_id twoBlockLedger 1 "X"
    (create_genesis_block id) (by decide) (by decide) (by decide) (by decide) (by decide)

/-- Claim C2: on a currently valid chain, mutating the amount of transaction
`j` inside the already-appended block at index i ≥ 1 (without recomputing that
block's stored hash) makes `is_chain_valid` return false, citing a hash
mismatch at index i. Holds for every injective digest. -/
theorem C2_tamper_detection (sha : String → String)
    (hinj : Function.Injective sha) (bc : Blockchain) (i j : Nat) (a : Int)
    (bi : Block) (tj : Transaction) (hvalid : is_chain_valid sha bc = true)
    (hi1 : 1 ≤ i) (hbi : bc.chain[i]? = some bi)
    (htj : bi.transactions[j]? = some tj) (ha : a ≠ tj.amount) :
    chain_verdict sha (updateAt (mutAmount j a) bc.chain i) = Verdict.hashMismatch i ∧
    is_chain_valid sha { bc with chain := updateAt (mutAmount j a) bc.chain i } = false := by
  have hvv : chain_verdict sha bc.chain = Verdict.valid := of_decide_eq_true hvalid
  obtain ⟨m, rfl⟩ : ∃ m, i = m + 1 := ⟨i - 1, by omega⟩
  cases hcc : bc.chain with
  | nil => rw [hcc] at hbi; simp at hbi
  | cons g rest =>
    rw [hcc] at hvv hbi
    rw [chain_verdict_cons] at hvv
    have hok := chainCheck_chainOk sha rest g 1 hvv
    have hbi' : rest[m]? = some bi := by simpa using hbi
    have hmain := chainCheck_mutate_amount sha hinj rest m 1 g j a bi tj hok hbi' htj ha
    have h1m : 1 + m = m + 1 := by omega
    rw [h1m] at hmain
    constructor
    · rw [updateAt_succ, chain_verdict_cons, hmain]
    · simp [is_chain_valid, updateAt_succ, chain_verdict_cons, hmain]

/-- A valid two-block ledger over the identity digest whose second block holds
one transaction, the concrete input of the witness of C2. -/
def txBlockLedger : Blockchain :=
  ⟨[create_genesis_block id,
    mkBlock id (create_genesis_block id).hash [⟨some "A", some "B", 100⟩] 5 0], [], 0⟩

/-- Witness for C2 at a concrete input: the amount 100 of the only transaction
of block 1 is mutated to 999. -/
theorem C2_tamper_detection_witness :
    chain_verdict id (updateAt (mutAmount 0 999) txBlockLedger.chain 1) =
      Verdict.hashMismatch 1 ∧
    is_chain_valid id { txBlockLedger with
      chain := updateAt (mutAmount 0 999) txBlockLedger.chain 1 } = false :=
  C2_tamper_detection id Function.injective_id txBlockLedger 1 0 999
    (mkBlock id (create_genesis_block id).hash [⟨some "A", some "B", 100⟩] 5 0)
    ⟨some "A", some "B", 100⟩ (by decide) (by decide) (by decide) (by decide) (by decide)

/-- Claim C4: starting from a freshly constructed ledger (any difficulty),
after N terminating `mine_pending_transactions` calls the chain has exactly
N + 1 entries and `is_chain_valid` returns true. -/
theorem C4_chain_growth (sha : String → String) (d : Nat)
    (params : List (Nat × Nat × Option String)) (bc' : Blockchain)
    (h : mineSeq sha params (mkBlockchain sha d) = some bc') :
    bc'.chain.length = params.length + 1 ∧ is_chain_valid sha bc' = true := by
  obtain ⟨hok, hlen⟩ :=
    mineSeq_ok sha params (mkBlockchain sha d) bc' (mkBlockchain_ledgerOk sha d) h
  refine ⟨?_, ledgerOk_is_chain_valid sha bc' hok⟩
  have h1 : (mkBlockchain sha d).chain.length = 1 := rfl
  omega

/-- The ledger after two terminating mines on a fresh default-difficulty ledger
over the identity digest, the concrete input of the witness of C4. -/
def minedTwice : Blockchain :=
  ⟨[create_genesis_block id, mkBlock id (create_genesis_block id).hash [] 7 0,
    mkBlock id (mkBlock id (create_genesis_block id).hash [] 7 0).hash
      [⟨none, some "m", 1⟩] 8 0],
    [⟨none, some "n", 1⟩], 2⟩

/-- Witness for C4 at a concrete input: two mines at difficulty 2 (the identity
digest of the genesis preimage starts with two zero characters, so both seals
succeed at nonce 0). -/
theorem C4_chain_growth_witness :
    minedTwice.chain.length = [(0, 7, some "m"), (0, 8, some "n")].length + 1 ∧
    is_chain_valid id minedTwice = true :=
  C4_chain_growth id 2 [(0, 7, some "m"), (0, 8, some "n")] minedTwice (by decide)

theorem balanceSpec_absent (address : Option String) :
    ∀ (txs : List Transaction),
      (∀ t ∈ txs, t.sender ≠ address ∧ t.receiver ≠ address) →
      balanceSpec address txs = 0 := by
  intro txs
  induction txs with
  | nil => intro _; rfl
  | cons t ts ih =>
    intro h
    obtain ⟨hs, hr⟩ := h t (List.mem_cons_self t ts)
    rw [balanceSpec_cons, ih (fun u hu => h u (List.mem_cons_of_mem t hu))]
    simp [txContrib, hs, hr]

/-- Claim C6: `get_balance` at a non-null address equals the signed sum the
spec describes over all chain transactions in order (credit on receiver match,
debit on sender match); consequently a transaction whose sender equals its
receiver contributes zero, and an address appearing in no transaction has
balance 0. -/
theorem C6_balance_accounting (bc : Blockchain) (a : String) :
    get_balance bc (some a) = balanceSpec (some a) (chainTxs bc) ∧
    ((∀ t ∈ chainTxs bc, t.sender ≠ some a ∧ t.receiver ≠ some a) →
      get_balance bc (some a) = 0) ∧
    (∀ t : Transaction, t.sender = t.receiver → txContrib (some a) t = 0) := by
  refine ⟨get_balance_eq bc (some a), ?_, ?_⟩
  · intro habs
    rw [get_balance_eq bc (some a)]
    exact balanceSpec_absent (some a) (chainTxs bc) habs
  · intro t hsr
    simp only [txContrib, hsr]
    exact sub_self _

/-- A ledger whose chain holds the transaction A → B : 100, the concrete input
of the witness of C6. -/
def balLedger : Blockchain :=
  ⟨[create_genesis_block id,
    mkBlock id (create_genesis_block id).hash [⟨some "A", some "B", 100⟩] 5 0], [], 2⟩

/-- Witness for C6 at a concrete input: an address mentioned by no transaction
has balance 0 on a ledger that does contain a transaction. -/
theorem C6_balance_accounting_witness : get_balance balLedger (some "Z") = 0 :=
  (C6_balance_accounting balLedger "Z").2.1 (by decide)

/-- Claim C8: a freshly constructed ledger has exactly the genesis block
(`previous_hash` "0", no transactions, timestamp 0, nonce 0) as its chain and
an empty pool, and the genesis block stays at index 0 under every sequence of
`add_transaction`, `add_block` and `mine_pending_transactions` operations. -/
theorem C8_genesis_invariants (sha : String → String) (d : Nat) :
    (mkBlockchain sha d).chain = [create_genesis_block sha] ∧
    (mkBlockchain sha d).pending_transactions = [] ∧
    (create_genesis_block sha).previous_hash = "0" ∧
    (create_genesis_block sha).transactions = [] ∧
    (create_genesis_block sha).timestamp = 0 ∧
    (create_genesis_block sha).nonce = 0 ∧
    ∀ (ops : List LedgerOp) (bc' : Blockchain),
      applyOps sha ops (mkBlockchain sha d) = some bc' →
      bc'.chain.head? = some (create_genesis_block sha) := by
  refine ⟨rfl, rfl, rfl, rfl, rfl, rfl, ?_⟩
  intro ops bc' h
  obtain ⟨t', ht'⟩ := applyOps_head sha ops (mkBlockchain sha d) bc'
    (create_genesis_block sha) ⟨[], rfl⟩ h
  rw [ht']
  rfl

/-- The ledger reached from a fresh one by an `add_transaction`, a terminating
mine and a raw `add_block`, the concrete input of the witness of C8. -/
def opsLedger : Blockchain :=
  ⟨[create_genesis_block id,
    mkBlock id (create_genesis_block id).hash [⟨some "A", some "B", 100⟩] 7 0,
    mkBlock id "zzz" [] 9 0],
    [⟨none, some "m", 1⟩], 2⟩

/-- Witness for C8 at a concrete input. -/
theorem C8_genesis_invariants_witness :
    opsLedger.chain.head? = some (create_genesis_block id) :=
  (C8_genesis_invariants id 2).2.2.2.2.2.2
    [LedgerOp.addTx ⟨some "A", some "B", 100⟩, LedgerOp.mine 0 7 (some "m"),
      LedgerOp.addBlk (mkBlock id "zzz" [] 9 0)] opsLedger (by decide)

theorem balanceSpec_rewards :
    ∀ (txs : List Transaction),
      (∀ t ∈ txs, t.sender = none ∧ t.receiver ≠ none) →
      balanceSpec none txs = -((txs.map Transaction.amount).sum) := by
  intro txs
  induction txs with
  | nil => intro _; rfl
  | cons t ts ih =>
    intro h
    obtain ⟨hs, hr⟩ := h t (List.mem_cons_self t ts)
    rw [balanceSpec_cons, ih (fun u hu => h u (List.mem_cons_of_mem t hu))]
    simp only [txContrib, hs, if_neg hr, List.map_cons, List.sum_cons]
    simp
    ring

/-- Claim C9: `get_balance` applied to the null address matches the null
sender of reward transactions, because the sender comparison has no null
guard: the balance follows the same signed-sum formula, a reward transaction
(sender none, receiver non-null) contributes exactly minus its amount, and on
a chain holding only reward transactions the null balance is minus the sum of
the reward amounts. -/
theorem C9_null_address_matches_rewards (bc : Blockchain) :
    get_balance bc none = balanceSpec none (chainTxs bc) ∧
    (∀ t : Transaction, t.sender = none → t.receiver ≠ none →
      txContrib none t = -t.amount) ∧
    ((∀ t ∈ chainTxs bc, t.sender = none ∧ t.receiver ≠ none) →
      get_balance bc none = -(((chainTxs bc).map Transaction.amount).sum)) := by
  refine ⟨get_balance_eq bc none, ?_, ?_⟩
  · intro t hs hr
    simp [txContrib, hs, if_neg hr]
  · intro h
    rw [get_balance_eq bc none]
    exact balanceSpec_rewards (chainTxs bc) h

/-- A ledger whose chain holds exactly one reward transaction (None, m, 1),
the concrete input of the witness of C9. -/
def rewardLedger : Blockchain :=
  ⟨[create_genesis_block id,
    mkBlock id (create_genesis_block id).hash [⟨none, some "m", 1⟩] 9 0], [], 2⟩

/-- Witness for C9 at a concrete input: the null balance of a chain holding the
single reward (None, m, 1) is minus the reward amount. -/
theorem C9_null_address_matches_rewards_witness :
    get_balance rewardLedger none = -(((chainTxs rewardLedger).map Transaction.amount).sum) :=
  (C9_null_address_matches_rewards rewardLedger).2.2 (by decide)
